import Mathlib

/-!
Verification of the player-scraping pipeline (`scrape_players.py`).

The pandas/BeautifulSoup program is shallowly embedded: a dataframe is a
`Table` (a list of column labels plus a list of rows of cells), a cell is
missing (`na`, pandas `NaN`/`pd.NA`), a string, or an integer (pandas numeric
dtypes are modelled on integers).  HTML parsing itself is out of scope: the
pipeline is modelled from the list of candidate tables the parse produced.
Column-label lookup is modelled as first-occurrence lookup (tables are
assumed to carry unique column labels, as the source pages do).
-/

/-- A dataframe cell: missing (`NaN`/`pd.NA`), a string, or a numeric value
(numerics are modelled on integers). -/
inductive Cell where
  | na : Cell
  | str : String → Cell
  | num : Int → Cell
deriving DecidableEq, Repr

/-- A dataframe: ordered column labels and rows of cells.  A row's cell for
column `i` is its `i`-th entry (missing entries read as `na`). -/
structure Table where
  cols : List String
  rows : List (List Cell)
deriving DecidableEq, Repr

/-- `COLUMNS` of the script: the canonical, ordered output schema. -/
def COLUMNS : List String :=
  ["Name", "Pos", "Team", "Age", "DOB", "POB", "Nationality", "Bats",
   "Throws", "Height", "Weight", "Salary"]

/-- `POS_SET` of the script: acceptable position codes. -/
def POS_SET : List String :=
  ["SP", "RP", "CL", "C", "1B", "2B", "3B", "SS", "LF", "CF", "RF", "DH"]

/-- Python `str(x)` on a cell, as used by `astype(str)` / `str(x).strip()`:
`NaN` prints as `"nan"`, numerics print their value. -/
def cellStr : Cell → String
  | Cell.na => "nan"
  | Cell.str s => s
  | Cell.num n => toString n

/-- First index of label `c` in a label list (auxiliary recursion). -/
def colIdxAux (c : String) : List String → Option Nat
  | [] => none
  | x :: xs => if x = c then some 0 else (colIdxAux c xs).map (fun i => i + 1)

/-- First index of column label `c`, the model of pandas label lookup. -/
def colIdx (cols : List String) (c : String) : Option Nat :=
  colIdxAux c cols

/-- The cell of row `r` at index `i` (missing entries read as `na`). -/
def cellAt (r : List Cell) (i : Nat) : Cell :=
  r.getD i Cell.na

/-! ### The junk patterns (`JUNK_PATTERNS`), as executable matchers

The source matches each pattern with `Series.str.contains(pat, flags=re.I,
regex=True)`, i.e. a case-insensitive `re.search`.  Each pattern is compiled
here into a direct matcher; `\s` and `\b` use their ASCII readings. -/

/-- Python regex `\s` (ASCII whitespace). -/
def pyWs (c : Char) : Bool :=
  c = ' ' || c = '\t' || c = '\n' || c = '\r' || c = '\x0b' || c = '\x0c'

/-- Python regex word character (ASCII reading of `\w`, for `\b`). -/
def isWordChar (c : Char) : Bool :=
  c.isAlphanum || c = '_'

/-- Python `str.strip()` as used by `Series.str.strip()` (ASCII whitespace).
Implemented over the character list so that it evaluates by kernel
reduction. -/
def pyStrip (s : String) : String :=
  ⟨((s.data.dropWhile pyWs).reverse.dropWhile pyWs).reverse⟩

/-- Python `str.lower()` (ASCII letters). -/
def pyLower (s : String) : String :=
  ⟨s.data.map Char.toLower⟩

/-- Python `str.upper()` (ASCII letters). -/
def pyUpper (s : String) : String :=
  ⟨s.data.map Char.toUpper⟩

/-- Python `c in s` for a single character (the comma test of
`Series.str.contains(",")`). -/
def pyContainsChar (s : String) (c : Char) : Bool :=
  s.data.contains c

/-- Python `s.startswith(p)` (matching an anchored regex literal). -/
def pyStartsWith (s p : String) : Bool :=
  p.data.isPrefixOf s.data

/-- The numeric value of a run of decimal digits. -/
def digitsVal (ds : List Char) : Nat :=
  ds.foldl (fun acc c => acc * 10 + (c.toNat - 48)) 0

/-- The integer parsing done by `pd.to_numeric`: surrounding whitespace
allowed, optional sign, decimal digits (numerics are modelled on
integers). -/
def pyToInt? (s : String) : Option Int :=
  match (pyStrip s).data with
  | [] => none
  | '-' :: ds =>
    if !ds.isEmpty && ds.all Char.isDigit then some (-(digitsVal ds : Int))
    else none
  | '+' :: ds =>
    if !ds.isEmpty && ds.all Char.isDigit then some ((digitsVal ds : Int))
    else none
  | ds =>
    if ds.all Char.isDigit then some ((digitsVal ds : Int)) else none

/-- Drop a leading run of regex whitespace (`\s*`). -/
def dropWs : List Char → List Char
  | [] => []
  | c :: cs => if pyWs c then dropWs cs else c :: cs

/-- Match `A\s*\|\s*B\s*\|\s*C` (case-insensitively) at the head of `cs`. -/
def matchABCFrom (cs : List Char) : Bool :=
  match cs with
  | [] => false
  | a :: r1 =>
    a.toLower = 'a' &&
      (match dropWs r1 with
       | '|' :: r2 =>
         (match dropWs r2 with
          | b :: r3 =>
            b.toLower = 'b' &&
              (match dropWs r3 with
               | '|' :: r4 =>
                 (match dropWs r4 with
                  | c :: _ => c.toLower = 'c'
                  | [] => false)
               | _ => false)
          | [] => false)
       | _ => false)

/-- Search `\bA\s*\|\s*B\s*\|\s*C` anywhere in the character list; the flag
records whether the previous character was a word character (for `\b`). -/
def searchABCAux : Bool → List Char → Bool
  | prevWord, c :: rest =>
    (!prevWord && matchABCFrom (c :: rest)) || searchABCAux (isWordChar c) rest
  | _, [] => false

/-- `re.search(r"\bA\s*\|\s*B\s*\|\s*C", s, re.I)` as a Boolean. -/
def searchABC (s : String) : Bool :=
  searchABCAux false s.data

/-- `re.search("^LIT\b", s, re.I)`: `s` starts (case-insensitively) with the
lowercase literal `p`, followed by a word boundary. -/
def startsWithWordB (s : String) (p : String) : Bool :=
  p.data.isPrefixOf (pyLower s).data &&
    (match (pyLower s).data.drop p.data.length with
     | [] => true
     | c :: _ => !isWordChar c)

/-- `re.search(r"^\s*NaN\s*$", s, re.I)`: optional whitespace around a literal
case-insensitive `NaN` filling the whole string. -/
def matchNanPat (s : String) : Bool :=
  match dropWs s.data with
  | a :: b :: c :: rest =>
    a.toLower = 'n' && b.toLower = 'a' && c.toLower = 'n' &&
      (dropWs rest).isEmpty
  | _ => false

/-- The disjunction of the eight `JUNK_PATTERNS`, in source order.  The two
patterns `^THE SHIELD\b` and `^The Shield\b` coincide under `re.I` and are a
single test here. -/
def isJunkName (s : String) : Bool :=
  searchABC s ||
  pyStartsWith (pyLower s) "bnn index" ||
  startsWithWordB s "the shield" ||
  startsWithWordB s "players list" ||
  startsWithWordB s "league stats page" ||
  startsWithWordB s "history" ||
  matchNanPat s

/-! ### `_drop_junk_rows`, decomposed into its stages -/

/-- The drop mask of `_drop_junk_rows` (lines computing `mask`): Name is
junk-ish, or Name/Pos/Team literally repeat a column header.  The Name series
is trimmed before matching (`astype(str).str.strip()`); the Pos and Team
series are not. -/
def junkMask (cols : List String) (r : List Cell) : Bool :=
  match colIdx cols "Name" with
  | none => false
  | some ni =>
    let ns := pyStrip (cellStr (cellAt r ni))
    isJunkName ns || pyLower ns == "name" ||
      (match colIdx cols "Pos" with
       | some pi =>
         let ps := cellStr (cellAt r pi)
         pyLower ps == "pos" || pyLower ps == "position"
       | none => false) ||
      (match colIdx cols "Team" with
       | some ti => pyLower (cellStr (cellAt r ti)) == "team"
       | none => false)

/-- The keep test of `_drop_junk_rows` (`comma_mask | pos_mask`): the trimmed
Name contains a comma, or — when a Pos column exists — the uppercased Pos
value is in `POS_SET`. -/
def keepTest (cols : List String) (r : List Cell) : Bool :=
  match colIdx cols "Name" with
  | none => false
  | some ni =>
    pyContainsChar (pyStrip (cellStr (cellAt r ni))) ',' ||
      (match colIdx cols "Pos" with
       | some pi => POS_SET.contains (pyUpper (cellStr (cellAt r pi)))
       | none => false)

/-- The row-filter stage `cleaned = df[~mask & keep]`. -/
def filterStage (cols : List String) (rows : List (List Cell)) :
    List (List Cell) :=
  rows.filter (fun r => !junkMask cols r && keepTest cols r)

/-- `pd.to_numeric(x, errors="coerce")` on one cell (numerics as integers):
numerics pass through, parsable strings become numeric, anything else
becomes missing. -/
def toNumericCell : Cell → Cell
  | Cell.na => Cell.na
  | Cell.num n => Cell.num n
  | Cell.str s =>
    match pyToInt? s with
    | some n => Cell.num n
    | none => Cell.na

/-- The Age coercion on one row: when an Age column exists, replace the Age
cell by its numeric coercion. -/
def coerceAgeRow (cols : List String) (r : List Cell) : List Cell :=
  match colIdx cols "Age" with
  | some ai => r.set ai (toNumericCell (cellAt r ai))
  | none => r

/-- The Age coercion stage of `_drop_junk_rows`. -/
def coerceAgeRows (cols : List String) (rows : List (List Cell)) :
    List (List Cell) :=
  rows.map (coerceAgeRow cols)

/-- One pass of the empty-value drop: when column `c` exists, keep only rows
whose stringified, trimmed value there is nonempty. -/
def dropEmptyCol (cols : List String) (c : String)
    (rows : List (List Cell)) : List (List Cell) :=
  match colIdx cols c with
  | some i => rows.filter (fun r => pyStrip (cellStr (cellAt r i)) != "")
  | none => rows

/-- The dedup subset `[c for c in ["Name","Team"] if c in cleaned.columns]`. -/
def dedupSubset (cols : List String) : List String :=
  ["Name", "Team"].filter (fun c => cols.contains c)

/-- The (Name, Team) key a row is deduplicated on: its cells at the subset's
columns. -/
def dedupKey (cols : List String) (r : List Cell) : List Cell :=
  (dedupSubset cols).map (fun c =>
    match colIdx cols c with
    | some i => cellAt r i
    | none => Cell.na)

/-- `drop_duplicates(keep="first")` on an arbitrary key: keep each element
whose key has not been seen among earlier elements. -/
def dedupByAux {α β : Type} [DecidableEq β] (key : α → β) (seen : List β) :
    List α → List α
  | [] => []
  | x :: xs =>
    if key x ∈ seen then dedupByAux key seen xs
    else x :: dedupByAux key (key x :: seen) xs

/-- The rows of `_drop_junk_rows` just before its dedup step: the
mask-and-keep filter, the Age coercion, and the empty Name/Team drops, in
source order. -/
def preDedupRows (t : Table) : List (List Cell) :=
  dropEmptyCol t.cols "Team"
    (dropEmptyCol t.cols "Name"
      (coerceAgeRows t.cols (filterStage t.cols t.rows)))

/-- `_drop_junk_rows`: identity when there is no Name column; otherwise the
mask-and-keep filter, the Age coercion, the empty Name/Team drops, and the
(Name, Team) dedup, in source order. -/
def dropJunkRows (t : Table) : Table :=
  match colIdx t.cols "Name" with
  | none => t
  | some _ =>
    if (dedupSubset t.cols).isEmpty then ⟨t.cols, preDedupRows t⟩
    else ⟨t.cols, dedupByAux (dedupKey t.cols) [] (preDedupRows t)⟩

/-! ### `_normalize_headers`, `_choose_best_table`, `extract_table` -/

/-- The `ren` synonym map of `_normalize_headers`, in source order. -/
def renList : List (String × String) :=
  [("Date of Birth", "DOB"), ("Place of Birth", "POB"),
   ("Nationality", "Nationality"), ("Throws/Bats", "Throws"),
   ("Bats/Throws", "Bats")]

/-- Apply the synonym renames: each `k → v` renames `k` only when `k` is a
column and `v` is not, in map order. -/
def applyRenames (cols : List String) : List String :=
  renList.foldl
    (fun cs kv =>
      if cs.contains kv.1 && !cs.contains kv.2 then
        cs.map (fun c => if c = kv.1 then kv.2 else c)
      else cs)
    cols

/-- The header-overlap count of `_normalize_headers`: how many trimmed cells
of the candidate first row are canonical column names. -/
def headerOverlap (row0 : List Cell) : Nat :=
  (row0.map (fun c => pyStrip (cellStr c))).countP (fun x => COLUMNS.contains x)

/-- `_normalize_headers`: fails (pandas `iloc[0]` IndexError) on a zero-row
table; otherwise promotes the first row to the header when at least 5 of its
trimmed cells are canonical names, then trims and synonym-renames the column
labels. -/
def normalizeHeaders (t : Table) : Except String Table :=
  match t.rows with
  | [] => .error "single positional indexer is out-of-bounds"
  | row0 :: rest =>
    let row0s := row0.map (fun c => pyStrip (cellStr c))
    let t1 : Table :=
      if headerOverlap row0 ≥ 5 then ⟨row0s, rest⟩ else t
    .ok ⟨applyRenames (t1.cols.map pyStrip), t1.rows⟩

/-- The score of `_choose_best_table`: how many trimmed column labels are
canonical. -/
def score (t : Table) : Nat :=
  (t.cols.map pyStrip).countP (fun c => COLUMNS.contains c)

/-- The fold of Python `max(tables, key=score)`: keep the current best,
replacing it only on a strictly greater score — so the first maximum wins. -/
def chooseBestGo (b : Table) (ts : List Table) : Table :=
  ts.foldl (fun best x => if score best < score x then x else best) b

/-- Python `max(tables, key=score)`; empty input has no maximum. -/
def chooseBestTable : List Table → Option Table
  | [] => none
  | t :: ts => some (chooseBestGo t ts)

/-- Label-based column projection `df[cs]`: the table whose columns are `cs`,
each row giving its cell at each label's (first) index, `na` when the label
is absent. -/
def projectCols (t : Table) (cs : List String) : Table :=
  ⟨cs,
   t.rows.map (fun r =>
     cs.map (fun c =>
       match colIdx t.cols c with
       | some i => cellAt r i
       | none => Cell.na))⟩

/-- The final fill of `extract_table`: add every absent canonical column as
all-missing, then reorder to exactly `COLUMNS` (`best[COLUMNS]`). -/
def fillMissing (t : Table) : Table :=
  projectCols t COLUMNS

/-- Recursive effectful map over `Except` (the normalization loop): the
first failure aborts the whole loop, as an uncaught Python exception does. -/
def mapME {α β : Type} (f : α → Except String β) :
    List α → Except String (List β)
  | [] => .ok []
  | x :: xs =>
    match f x with
    | .error e => .error e
    | .ok y =>
      match mapME f xs with
      | .error e => .error e
      | .ok ys => .ok (y :: ys)

/-- `extract_table` after parsing: fail when no tables were found, normalize
every candidate, choose the best, project to the canonical columns present,
clean rows, and fill out the canonical schema. -/
def extractTable (tables : List Table) : Except String Table :=
  if tables.isEmpty then .error "No tables found on page."
  else
    match mapME normalizeHeaders tables with
    | .error e => .error e
    | .ok normed =>
      match chooseBestTable normed with
      | none => .error "max() arg is an empty sequence"
      | some best =>
        let keep := COLUMNS.filter (fun c => best.cols.contains c)
        let best1 := if keep.isEmpty then best else projectCols best keep
        .ok (fillMissing (dropJunkRows best1))

/-! ### `main`: letter tagging, concatenation, stable sort -/

/-- Code-point comparison of characters. -/
def charLeNat (a b : Char) : Prop := a.toNat ≤ b.toNat

/-- Strict code-point lexicographic comparison of character lists (Python
string `<`). -/
def charListLt : List Char → List Char → Bool
  | [], [] => false
  | [], _ :: _ => true
  | _ :: _, [] => false
  | a :: as, b :: bs =>
    if a.toNat < b.toNat then true
    else if b.toNat < a.toNat then false
    else charListLt as bs

/-- Non-strict string comparison (code-point lexicographic). -/
def strLe (a b : String) : Bool :=
  !charListLt b.data a.data

/-- The `sort_values(..., na_position="last")` order on one sort-key cell:
missing sorts after everything, strings by code points.  (A numeric key cell
cannot meet a string one on the sorted columns; numerics are ordered among
themselves and placed before strings to keep the order total.) -/
def cellLe (a b : Cell) : Bool :=
  match a, b with
  | _, Cell.na => true
  | Cell.na, _ => false
  | Cell.num m, Cell.num n => m ≤ n
  | Cell.num _, Cell.str _ => true
  | Cell.str _, Cell.num _ => false
  | Cell.str s, Cell.str t => strLe s t

/-- Lexicographic order on a (Letter, Name, Team) key triple. -/
def keyLe (a b : Cell × Cell × Cell) : Bool :=
  if a.1 = b.1 then
    if a.2.1 = b.2.1 then cellLe a.2.2 b.2.2
    else cellLe a.2.1 b.2.1
  else cellLe a.1 b.1

/-- Insert `x` into an ascending list, after every element `le`-below-or-equal
it (the stable position). -/
def insSorted {α : Type} (le : α → α → Bool) (x : α) : List α → List α
  | [] => [x]
  | y :: ys => if le y x then y :: insSorted le x ys else x :: y :: ys

/-- A stable sort (insertion sort processing the input left to right). -/
def stableSortBy {α : Type} (le : α → α → Bool) (l : List α) : List α :=
  l.foldl (fun acc x => insSorted le x acc) []

/-- The sort key of `sort_values(["Letter","Name","Team"])` for a row. -/
def aggKey (cols : List String) (r : List Cell) : Cell × Cell × Cell :=
  (match colIdx cols "Letter" with
   | some i => cellAt r i
   | none => Cell.na,
   match colIdx cols "Name" with
   | some i => cellAt r i
   | none => Cell.na,
   match colIdx cols "Team" with
   | some i => cellAt r i
   | none => Cell.na)

/-- The row order used by the final sort. -/
def aggRowLe (cols : List String) (r1 r2 : List Cell) : Bool :=
  keyLe (aggKey cols r1) (aggKey cols r2)

/-- `df["Letter"] = L.lower()`: append a Letter column holding the lowercased
letter to every row. -/
def tagLetter (letter : String) (t : Table) : Table :=
  ⟨t.cols ++ ["Letter"],
   t.rows.map (fun r => r ++ [Cell.str (pyLower letter)])⟩

/-- The per-letter loop of `main`: extract each letter's table and tag it;
any failure aborts the whole run. -/
def collectFrames (letters : List String) (pages : String → List Table) :
    Except String (List Table) :=
  mapME (fun L => (extractTable (pages L)).map (tagLetter L)) letters

/-- `main` up to export: collect the per-letter frames, concatenate them
(`pd.concat` fails on no frames), and stable-sort the rows by
(Letter, Name, Team) with missing values last. -/
def mainAggregate (letters : List String) (pages : String → List Table) :
    Except String Table :=
  match collectFrames letters pages with
  | .error e => .error e
  | .ok [] => .error "No objects to concatenate"
  | .ok (f :: fs) =>
    .ok ⟨f.cols,
      stableSortBy (aggRowLe f.cols) (((f :: fs).map Table.rows).flatten)⟩

/-! ### Basic facts about column lookup -/

theorem colIdxAux_getD {c : String} :
    ∀ {cols : List String} {i : Nat}, colIdxAux c cols = some i →
      cols.getD i "" = c := by
  intro cols
  induction cols with
  | nil => intro i h; simp [colIdxAux] at h
  | cons x xs ih =>
    intro i h
    by_cases hx : x = c
    · simp [colIdxAux, hx] at h
      subst h
      simpa using hx
    · simp [colIdxAux, hx] at h
      obtain ⟨j, hj, rfl⟩ := h
      simpa using ih hj

theorem colIdx_getD {cols : List String} {c : String} {i : Nat}
    (h : colIdx cols c = some i) : cols.getD i "" = c :=
  colIdxAux_getD h

theorem colIdx_ne_of_label_ne {cols : List String} {c d : String} {i j : Nat}
    (hc : colIdx cols c = some i) (hd : colIdx cols d = some j)
    (hne : c ≠ d) : i ≠ j := by
  intro hij
  subst hij
  exact hne ((colIdx_getD hc).symm.trans (colIdx_getD hd))

theorem colIdx_contains {cols : List String} {c : String} {i : Nat}
    (h : colIdx cols c = some i) : cols.contains c = true := by
  induction cols generalizing i with
  | nil => simp [colIdx, colIdxAux] at h
  | cons x xs ih =>
    by_cases hx : x = c
    · simp [hx]
    · simp only [colIdx, colIdxAux, if_neg hx] at h
      obtain ⟨j, hj, _⟩ := Option.map_eq_some'.mp h
      have := ih (i := j) hj
      simpa [List.contains_cons] using Or.inr this

/-! ### Cell preservation under the Age coercion -/

theorem cellAt_set_ne {r : List Cell} {i j : Nat} {v : Cell} (h : i ≠ j) :
    cellAt (r.set i v) j = cellAt r j := by
  simp [cellAt, List.getD_eq_getElem?_getD, List.getElem?_set_ne h]

theorem cellAt_coerceAgeRow_ne {cols : List String} {r : List Cell} {j : Nat}
    (h : ∀ ai : Nat, colIdx cols "Age" = some ai → ai ≠ j) :
    cellAt (coerceAgeRow cols r) j = cellAt r j := by
  unfold coerceAgeRow
  cases hAge : colIdx cols "Age" with
  | none => rfl
  | some ai => exact cellAt_set_ne (h ai hAge)

theorem toNumericCell_idem (c : Cell) :
    toNumericCell (toNumericCell c) = toNumericCell c := by
  cases c with
  | na => rfl
  | num n => rfl
  | str s =>
    unfold toNumericCell
    cases h : pyToInt? s <;> simp [h]

theorem cellAt_set_self {r : List Cell} {i : Nat} {v : Cell}
    (h : i < r.length) : cellAt (r.set i v) i = v := by
  simp [cellAt, List.getD_eq_getElem?_getD, List.getElem?_set_self h]

theorem coerceAgeRow_idem (cols : List String) (r : List Cell) :
    coerceAgeRow cols (coerceAgeRow cols r) = coerceAgeRow cols r := by
  cases hAge : colIdx cols "Age" with
  | none => simp only [coerceAgeRow, hAge]
  | some ai =>
    simp only [coerceAgeRow, hAge]
    by_cases hlen : ai < r.length
    · rw [cellAt_set_self (v := toNumericCell (cellAt r ai)) hlen,
        toNumericCell_idem, List.set_set]
    · have hset : r.set ai (toNumericCell (cellAt r ai)) = r := by
        apply List.set_eq_of_length_le
        omega
      rw [hset, hset]

/-! ### `drop_duplicates` lemmas -/

theorem dedupByAux_sublist {α β : Type} [DecidableEq β] (key : α → β) :
    ∀ (l : List α) (seen : List β), (dedupByAux key seen l).Sublist l := by
  intro l
  induction l with
  | nil => intro seen; simp [dedupByAux]
  | cons x xs ih =>
    intro seen
    unfold dedupByAux
    by_cases hx : key x ∈ seen
    · simp only [if_pos hx]
      exact (ih seen).trans (List.sublist_cons_self x xs)
    · simp only [if_neg hx]
      exact (ih (key x :: seen)).cons₂ x

theorem dedupByAux_notSeen_and_pairwise {α β : Type} [DecidableEq β]
    (key : α → β) :
    ∀ (l : List α) (seen : List β),
      (∀ y ∈ dedupByAux key seen l, key y ∉ seen) ∧
      List.Pairwise (fun a b => key a ≠ key b) (dedupByAux key seen l) := by
  intro l
  induction l with
  | nil => intro seen; simp [dedupByAux]
  | cons x xs ih =>
    intro seen
    unfold dedupByAux
    by_cases hx : key x ∈ seen
    · simpa only [if_pos hx] using ih seen
    · simp only [if_neg hx]
      constructor
      · intro y hy
        rcases List.mem_cons.mp hy with rfl | hy
        · exact hx
        · have := (ih (key x :: seen)).1 _ hy
          intro hseen
          exact this (List.mem_cons_of_mem _ hseen)
      · rw [List.pairwise_cons]
        refine ⟨?_, (ih (key x :: seen)).2⟩
        intro y hy
        have := (ih (key x :: seen)).1 _ hy
        intro hxy
        exact this (by rw [← hxy]; exact List.mem_cons_self _ _)

theorem dedupByAux_first {α β : Type} [DecidableEq β] (key : α → β) :
    ∀ (l : List α) (seen : List β) (y : α), y ∈ dedupByAux key seen l →
      key y ∉ seen ∧
      (l.filter (fun x => key x = key y)).head? = some y := by
  intro l
  induction l with
  | nil => intro seen y hy; simp [dedupByAux] at hy
  | cons x xs ih =>
    intro seen y hy
    unfold dedupByAux at hy
    by_cases hx : key x ∈ seen
    · simp only [if_pos hx] at hy
      obtain ⟨hns, hhead⟩ := ih seen y hy
      refine ⟨hns, ?_⟩
      have hne : ¬(key x = key y) := by
        intro he
        exact hns (he ▸ hx)
      simpa [List.filter_cons, hne] using hhead
    · simp only [if_neg hx] at hy
      rcases List.mem_cons.mp hy with rfl | hy
      · exact ⟨hx, by simp [List.filter_cons]⟩
      · obtain ⟨hns, hhead⟩ := ih (key x :: seen) y hy
        have hne : ¬(key x = key y) := by
          intro he
          exact hns (by rw [← he]; exact List.mem_cons_self _ _)
        refine ⟨fun hseen => hns (List.mem_cons_of_mem _ hseen), ?_⟩
        simpa [List.filter_cons, hne] using hhead

theorem dedupByAux_fixpoint {α β : Type} [DecidableEq β] (key : α → β) :
    ∀ (l : List α) (seen : List β),
      (∀ x ∈ l, key x ∉ seen) →
      List.Pairwise (fun a b => key a ≠ key b) l →
      dedupByAux key seen l = l := by
  intro l
  induction l with
  | nil => intro seen _ _; rfl
  | cons x xs ih =>
    intro seen hseen hpw
    rw [List.pairwise_cons] at hpw
    unfold dedupByAux
    rw [if_neg (hseen x (List.mem_cons_self _ _))]
    congr 1
    apply ih
    · intro z hz
      simp only [List.mem_cons]
      push_neg
      refine ⟨fun he => hpw.1 z hz he.symm, hseen z (List.mem_cons_of_mem _ hz)⟩
    · exact hpw.2

/-! ### Structure of `_drop_junk_rows` output rows -/

theorem dropEmptyCol_sublist (cols : List String) (c : String)
    (rows : List (List Cell)) : (dropEmptyCol cols c rows).Sublist rows := by
  unfold dropEmptyCol
  cases colIdx cols c with
  | none => exact List.Sublist.refl rows
  | some i => exact List.filter_sublist rows

theorem mem_dropEmptyCol_pred {cols : List String} {c : String} {i : Nat}
    {rows : List (List Cell)} {r : List Cell}
    (hc : colIdx cols c = some i) (hr : r ∈ dropEmptyCol cols c rows) :
    (pyStrip (cellStr (cellAt r i)) != "") = true := by
  unfold dropEmptyCol at hr
  rw [hc] at hr
  exact (List.mem_filter.mp hr).2

theorem dropJunkRows_cols (t : Table) : (dropJunkRows t).cols = t.cols := by
  unfold dropJunkRows
  cases colIdx t.cols "Name" with
  | none => rfl
  | some ni =>
    by_cases h : (dedupSubset t.cols).isEmpty <;> simp [h]

theorem mem_dropJunkRows_preDedup {t : Table} {ni : Nat}
    (hn : colIdx t.cols "Name" = some ni) {r : List Cell}
    (hr : r ∈ (dropJunkRows t).rows) : r ∈ preDedupRows t := by
  unfold dropJunkRows at hr
  rw [hn] at hr
  by_cases h : (dedupSubset t.cols).isEmpty
  · simpa [h] using hr
  · simp only [if_neg h] at hr
    exact (dedupByAux_sublist (dedupKey t.cols) (preDedupRows t) []).mem hr

theorem mem_preDedup {t : Table} {r : List Cell} (hr : r ∈ preDedupRows t) :
    ∃ r' ∈ t.rows, junkMask t.cols r' = false ∧ keepTest t.cols r' = true ∧
      r = coerceAgeRow t.cols r' := by
  unfold preDedupRows at hr
  have hr2 := (dropEmptyCol_sublist t.cols "Team" _).mem hr
  have hr3 := (dropEmptyCol_sublist t.cols "Name" _).mem hr2
  unfold coerceAgeRows at hr3
  obtain ⟨r', hr', heq⟩ := List.mem_map.mp hr3
  unfold filterStage at hr'
  obtain ⟨hmem, hpred⟩ := List.mem_filter.mp hr'
  rw [Bool.and_eq_true, Bool.not_eq_true'] at hpred
  exact ⟨r', hmem, hpred.1, hpred.2, heq.symm⟩

theorem junkMask_coerceAgeRow (cols : List String) (r : List Cell) :
    junkMask cols (coerceAgeRow cols r) = junkMask cols r := by
  cases hn : colIdx cols "Name" with
  | none => simp [junkMask, hn]
  | some ni =>
    have e1 : cellAt (coerceAgeRow cols r) ni = cellAt r ni :=
      cellAt_coerceAgeRow_ne
        (fun ai hai => colIdx_ne_of_label_ne hai hn (by decide))
    cases hp : colIdx cols "Pos" with
    | none =>
      cases ht : colIdx cols "Team" with
      | none => simp only [junkMask, hn, hp, ht, e1]
      | some ti =>
        have e3 : cellAt (coerceAgeRow cols r) ti = cellAt r ti :=
          cellAt_coerceAgeRow_ne
            (fun ai hai => colIdx_ne_of_label_ne hai ht (by decide))
        simp only [junkMask, hn, hp, ht, e1, e3]
    | some pi =>
      have e2 : cellAt (coerceAgeRow cols r) pi = cellAt r pi :=
        cellAt_coerceAgeRow_ne
          (fun ai hai => colIdx_ne_of_label_ne hai hp (by decide))
      cases ht : colIdx cols "Team" with
      | none => simp only [junkMask, hn, hp, ht, e1, e2]
      | some ti =>
        have e3 : cellAt (coerceAgeRow cols r) ti = cellAt r ti :=
          cellAt_coerceAgeRow_ne
            (fun ai hai => colIdx_ne_of_label_ne hai ht (by decide))
        simp only [junkMask, hn, hp, ht, e1, e2, e3]

theorem keepTest_coerceAgeRow (cols : List String) (r : List Cell) :
    keepTest cols (coerceAgeRow cols r) = keepTest cols r := by
  cases hn : colIdx cols "Name" with
  | none => simp [keepTest, hn]
  | some ni =>
    have e1 : cellAt (coerceAgeRow cols r) ni = cellAt r ni :=
      cellAt_coerceAgeRow_ne
        (fun ai hai => colIdx_ne_of_label_ne hai hn (by decide))
    cases hp : colIdx cols "Pos" with
    | none => simp only [keepTest, hn, hp, e1]
    | some pi =>
      have e2 : cellAt (coerceAgeRow cols r) pi = cellAt r pi :=
        cellAt_coerceAgeRow_ne
          (fun ai hai => colIdx_ne_of_label_ne hai hp (by decide))
      simp only [keepTest, hn, hp, e1, e2]

theorem dropJunkRows_row_source {t : Table} {ni : Nat}
    (hn : colIdx t.cols "Name" = some ni) {r : List Cell}
    (hr : r ∈ (dropJunkRows t).rows) :
    ∃ r' ∈ t.rows, junkMask t.cols r' = false ∧ keepTest t.cols r' = true ∧
      r = coerceAgeRow t.cols r' :=
  mem_preDedup (mem_dropJunkRows_preDedup hn hr)

theorem dropJunkRows_row_pred {t : Table} {ni : Nat}
    (hn : colIdx t.cols "Name" = some ni) {r : List Cell}
    (hr : r ∈ (dropJunkRows t).rows) :
    junkMask t.cols r = false ∧ keepTest t.cols r = true := by
  obtain ⟨r', _, hmask, hkeep, heq⟩ := dropJunkRows_row_source hn hr
  subst heq
  rw [junkMask_coerceAgeRow, keepTest_coerceAgeRow]
  exact ⟨hmask, hkeep⟩

theorem dropJunkRows_eq_ite {u : Table} {ni : Nat}
    (hn : colIdx u.cols "Name" = some ni) :
    dropJunkRows u =
      if (dedupSubset u.cols).isEmpty then ⟨u.cols, preDedupRows u⟩
      else ⟨u.cols, dedupByAux (dedupKey u.cols) [] (preDedupRows u)⟩ := by
  unfold dropJunkRows
  rw [hn]

theorem map_eq_self_of {α : Type} {f : α → α} :
    ∀ {l : List α}, (∀ x ∈ l, f x = x) → l.map f = l := by
  intro l
  induction l with
  | nil => intro _; rfl
  | cons x xs ih =>
    intro h
    simp only [List.map_cons, h x (List.mem_cons_self _ _),
      ih (fun z hz => h z (List.mem_cons_of_mem _ hz))]

theorem dropJunkRows_idem {t : Table} {ni : Nat}
    (hn : colIdx t.cols "Name" = some ni) :
    dropJunkRows (dropJunkRows t) = dropJunkRows t := by
  have hcols : (dropJunkRows t).cols = t.cols := dropJunkRows_cols t
  have hpred : ∀ r ∈ (dropJunkRows t).rows,
      (!junkMask t.cols r && keepTest t.cols r) = true := by
    intro r hr
    obtain ⟨h1, h2⟩ := dropJunkRows_row_pred hn hr
    simp [h1, h2]
  have hfilter : filterStage t.cols (dropJunkRows t).rows
      = (dropJunkRows t).rows := by
    unfold filterStage
    exact List.filter_eq_self.mpr hpred
  have hco : ∀ r ∈ (dropJunkRows t).rows, coerceAgeRow t.cols r = r := by
    intro r hr
    obtain ⟨r', _, _, _, heq⟩ := dropJunkRows_row_source hn hr
    rw [heq, coerceAgeRow_idem]
  have hcoerce : coerceAgeRows t.cols (dropJunkRows t).rows
      = (dropJunkRows t).rows := by
    unfold coerceAgeRows
    exact map_eq_self_of hco
  have hnameD : dropEmptyCol t.cols "Name" (dropJunkRows t).rows
      = (dropJunkRows t).rows := by
    unfold dropEmptyCol
    rw [hn]
    apply List.filter_eq_self.mpr
    intro r hr
    have hpre := mem_dropJunkRows_preDedup hn hr
    unfold preDedupRows at hpre
    have h2 := (dropEmptyCol_sublist t.cols "Team" _).mem hpre
    exact mem_dropEmptyCol_pred hn h2
  have hteamD : dropEmptyCol t.cols "Team" (dropJunkRows t).rows
      = (dropJunkRows t).rows := by
    unfold dropEmptyCol
    cases ht : colIdx t.cols "Team" with
    | none => rfl
    | some ti =>
      apply List.filter_eq_self.mpr
      intro r hr
      have hpre := mem_dropJunkRows_preDedup hn hr
      unfold preDedupRows at hpre
      exact mem_dropEmptyCol_pred ht hpre
  have hpre : preDedupRows (dropJunkRows t) = (dropJunkRows t).rows := by
    unfold preDedupRows
    rw [hcols, hfilter, hcoerce, hnameD, hteamD]
  have hn2 : colIdx (dropJunkRows t).cols "Name" = some ni := by
    rw [hcols]; exact hn
  rw [dropJunkRows_eq_ite hn2, hcols, hpre]
  by_cases hsub : (dedupSubset t.cols).isEmpty
  · rw [if_pos hsub, ← hcols]
  · rw [if_neg hsub]
    have hfirst : dropJunkRows t
        = ⟨t.cols, dedupByAux (dedupKey t.cols) [] (preDedupRows t)⟩ := by
      rw [dropJunkRows_eq_ite hn, if_neg hsub]
    have hpw : List.Pairwise
        (fun a b => dedupKey t.cols a ≠ dedupKey t.cols b)
        (dropJunkRows t).rows := by
      rw [hfirst]
      exact (dedupByAux_notSeen_and_pairwise (dedupKey t.cols)
        (preDedupRows t) []).2
    rw [dedupByAux_fixpoint _ _ _
      (by intro x _ hx; exact absurd hx (List.not_mem_nil _)) hpw]
    rw [← hcols]

/-! ### Claim C9: no Name column means the cleaner is the identity -/

/-- C9: if the input table has no column named "Name", `_drop_junk_rows`
returns it completely unchanged — no filtering, coercion, empty-drop or
dedup is applied. -/
theorem claim_C9_no_name_identity (t : Table)
    (h : colIdx t.cols "Name" = none) : dropJunkRows t = t := by
  unfold dropJunkRows
  rw [h]

/-- A table without a Name column, with junk-looking content that would
otherwise be touched. -/
def tblNoName : Table :=
  ⟨["Foo", "Team"], [[Cell.str "A | B | C | D", Cell.str " x "],
    [Cell.str "", Cell.na]]⟩

theorem claim_C9_witness :
    colIdx tblNoName.cols "Name" = none ∧ dropJunkRows tblNoName = tblNoName :=
  ⟨by decide, claim_C9_no_name_identity tblNoName (by decide)⟩

/-! ### Claim C3: no emitted row has Name equal to "name" -/

theorem junkMask_name_false {cols : List String} {r : List Cell} {ni : Nat}
    (hn : colIdx cols "Name" = some ni) (h : junkMask cols r = false) :
    pyLower (pyStrip (cellStr (cellAt r ni))) ≠ "name" := by
  simp only [junkMask, hn] at h
  have h2 := (Bool.or_eq_false_iff.mp
    ((Bool.or_eq_false_iff.mp (Bool.or_eq_false_iff.mp h).1).1)).2
  exact beq_eq_false_iff_ne.mp h2

/-- C3: the Row Cleaner never emits a row whose Name field, trimmed and
compared case-insensitively, equals "name"; header-repeat rows are dropped,
not retained as data. -/
theorem claim_C3_no_header_name_rows (t : Table) (ni : Nat)
    (hn : colIdx t.cols "Name" = some ni) :
    ∀ r ∈ (dropJunkRows t).rows,
      pyLower (pyStrip (cellStr (cellAt r ni))) ≠ "name" := by
  intro r hr
  exact junkMask_name_false hn (dropJunkRows_row_pred hn hr).1

/-- A table whose first data row duplicates the header. -/
def tblHeaderRepeat : Table :=
  ⟨["Name", "Pos", "Team"],
   [[Cell.str "Name", Cell.str "Pos", Cell.str "Team"],
    [Cell.str "Smith, John", Cell.str "SS", Cell.str "Tigers"]]⟩

theorem claim_C3_witness :
    colIdx tblHeaderRepeat.cols "Name" = some 0 ∧
    (dropJunkRows tblHeaderRepeat).rows
      = [[Cell.str "Smith, John", Cell.str "SS", Cell.str "Tigers"]] ∧
    pyLower (pyStrip (cellStr
      (cellAt [Cell.str "Smith, John", Cell.str "SS", Cell.str "Tigers"] 0)))
      ≠ "name" :=
  ⟨by decide, by decide,
   claim_C3_no_header_name_rows tblHeaderRepeat 0 (by decide)
     [Cell.str "Smith, John", Cell.str "SS", Cell.str "Tigers"] (by decide)⟩

/-! ### Claim C2: the comma-or-position keep test -/

/-- C2 counterexample: the claim's "if" direction fails against the whole
Row Cleaner.  This row survives the junk-pattern and header-repeat filters
and its Name contains a comma, yet the cleaner does not keep it: the
empty-Team drop removes it. -/
theorem claim_C2_counterexample :
    junkMask ["Name", "Team"] [Cell.str "Lee, Min", Cell.str ""] = false ∧
    pyContainsChar
      (pyStrip (cellStr (cellAt [Cell.str "Lee, Min", Cell.str ""] 0))) ','
      = true ∧
    (dropJunkRows ⟨["Name", "Team"], [[Cell.str "Lee, Min", Cell.str ""]]⟩).rows
      = [] :=
  ⟨by decide, by decide, by decide⟩

theorem keepTest_iff {cols : List String} {r : List Cell} {ni : Nat}
    (hn : colIdx cols "Name" = some ni) :
    keepTest cols r = true ↔
      (pyContainsChar (pyStrip (cellStr (cellAt r ni))) ',' = true ∨
       ∃ pi, colIdx cols "Pos" = some pi ∧
         POS_SET.contains (pyUpper (cellStr (cellAt r pi))) = true) := by
  cases hp : colIdx cols "Pos" with
  | none =>
    simp only [keepTest, hn, hp, Bool.or_eq_true]
    constructor
    · rintro (h | h)
      · exact Or.inl h
      · exact absurd h (by simp)
    · rintro (h | ⟨pi, hpi, _⟩)
      · exact Or.inl h
      · exact Option.noConfusion hpi
  | some pi =>
    simp only [keepTest, hn, hp, Bool.or_eq_true]
    constructor
    · rintro (h | h)
      · exact Or.inl h
      · exact Or.inr ⟨pi, rfl, h⟩
    · rintro (h | ⟨pi2, hpi2, hmem⟩)
      · exact Or.inl h
      · injection hpi2 with he
        subst he
        exact Or.inr hmem

/-- C2 amended: a row surviving the junk and header-repeat filters passes
the mask-and-keep filter stage exactly when its trimmed Name contains a
comma or a Pos column exists whose uppercased value is a position code
(first conjunct, stated as the full characterization of the filter stage);
every row the whole cleaner emits satisfies that disjunction (second
conjunct).  Rows passing the filter stage can still be removed by the
later empty-Name/Team drop or the (Name, Team) dedup. -/
theorem claim_C2_amended (t : Table) (ni : Nat)
    (hn : colIdx t.cols "Name" = some ni) :
    (∀ r : List Cell,
       r ∈ filterStage t.cols t.rows ↔
         r ∈ t.rows ∧ junkMask t.cols r = false ∧
           (pyContainsChar (pyStrip (cellStr (cellAt r ni))) ',' = true ∨
            ∃ pi, colIdx t.cols "Pos" = some pi ∧
              POS_SET.contains (pyUpper (cellStr (cellAt r pi))) = true)) ∧
    (∀ r ∈ (dropJunkRows t).rows,
       pyContainsChar (pyStrip (cellStr (cellAt r ni))) ',' = true ∨
       ∃ pi, colIdx t.cols "Pos" = some pi ∧
         POS_SET.contains (pyUpper (cellStr (cellAt r pi))) = true) := by
  constructor
  · intro r
    unfold filterStage
    rw [List.mem_filter]
    constructor
    · rintro ⟨hmem, hb⟩
      rw [Bool.and_eq_true, Bool.not_eq_true'] at hb
      exact ⟨hmem, hb.1, (keepTest_iff hn).mp hb.2⟩
    · rintro ⟨hmem, hmask, hkeep⟩
      refine ⟨hmem, ?_⟩
      rw [Bool.and_eq_true, Bool.not_eq_true']
      exact ⟨hmask, (keepTest_iff hn).mpr hkeep⟩
  · intro r hr
    exact (keepTest_iff hn).mp (dropJunkRows_row_pred hn hr).2

/-- A one-row table with a comma-formatted Name and no Pos column. -/
def tblCommaNoPos : Table :=
  ⟨["Name"], [[Cell.str "Lee, Min"]]⟩

theorem claim_C2_witness :
    colIdx tblCommaNoPos.cols "Name" = some 0 ∧
    [Cell.str "Lee, Min"] ∈ (dropJunkRows tblCommaNoPos).rows ∧
    (pyContainsChar (pyStrip (cellStr (cellAt [Cell.str "Lee, Min"] 0))) ','
        = true ∨
     ∃ pi, colIdx tblCommaNoPos.cols "Pos" = some pi ∧
       POS_SET.contains (pyUpper (cellStr (cellAt [Cell.str "Lee, Min"] pi)))
         = true) :=
  ⟨by decide, by decide,
   (claim_C2_amended tblCommaNoPos 0 (by decide)).2
     [Cell.str "Lee, Min"] (by decide)⟩

/-! ### Claim C7: trimming of output cells -/

/-- C7 counterexample: the cleaner keeps this row and emits its Name cell
with the surrounding whitespace intact — no post-filter trim of text cells
happens. -/
theorem claim_C7_counterexample :
    dropJunkRows ⟨["Name"], [[Cell.str " Smith, John "]]⟩
      = ⟨["Name"], [[Cell.str " Smith, John "]]⟩ ∧
    pyStrip " Smith, John " ≠ " Smith, John " :=
  ⟨by decide, by decide⟩

/-- C7 amended: the Row Cleaner never rewrites text cells; trimming is used
only inside its filter comparisons.  Every emitted row is an input row with
at most its Age cell replaced (by the numeric coercion); every non-Age cell
is preserved verbatim, surrounding whitespace included. -/
theorem claim_C7_amended (t : Table) (ni : Nat)
    (hn : colIdx t.cols "Name" = some ni) :
    ∀ r ∈ (dropJunkRows t).rows, ∃ r', r' ∈ t.rows ∧
      r = coerceAgeRow t.cols r' ∧
      ∀ j : Nat, colIdx t.cols "Age" ≠ some j → cellAt r j = cellAt r' j := by
  intro r hr
  obtain ⟨r', hmem, _, _, heq⟩ := dropJunkRows_row_source hn hr
  refine ⟨r', hmem, heq, ?_⟩
  intro j hj
  rw [heq]
  apply cellAt_coerceAgeRow_ne
  intro ai hai he
  exact hj (he ▸ hai)

theorem claim_C7_witness :
    colIdx (⟨["Name"], [[Cell.str " Smith, John "]]⟩ : Table).cols "Name"
      = some 0 ∧
    (∃ r', r' ∈ (⟨["Name"], [[Cell.str " Smith, John "]]⟩ : Table).rows ∧
      [Cell.str " Smith, John "]
        = coerceAgeRow (⟨["Name"], [[Cell.str " Smith, John "]]⟩ : Table).cols r' ∧
      ∀ j : Nat,
        colIdx (⟨["Name"], [[Cell.str " Smith, John "]]⟩ : Table).cols "Age"
          ≠ some j →
        cellAt [Cell.str " Smith, John "] j = cellAt r' j) :=
  ⟨by decide,
   claim_C7_amended ⟨["Name"], [[Cell.str " Smith, John "]]⟩ 0 (by decide)
     [Cell.str " Smith, John "] (by decide)⟩

/-! ### Claim C4: (Name, Team) deduplication and idempotence -/

theorem dedupSubset_eq_both {cols : List String} {ni ti : Nat}
    (hn : colIdx cols "Name" = some ni) (ht : colIdx cols "Team" = some ti) :
    dedupSubset cols = ["Name", "Team"] := by
  have h1 : "Name" ∈ cols := by simpa using colIdx_contains hn
  have h2 : "Team" ∈ cols := by simpa using colIdx_contains ht
  unfold dedupSubset
  rw [List.filter_cons, List.filter_cons]
  simp [h1, h2]

theorem dedupKey_pair {cols : List String} {ni ti : Nat} (r : List Cell)
    (hn : colIdx cols "Name" = some ni) (ht : colIdx cols "Team" = some ti) :
    dedupKey cols r = [cellAt r ni, cellAt r ti] := by
  unfold dedupKey
  rw [dedupSubset_eq_both hn ht]
  simp [hn, ht]

/-- C4: with Name and Team columns present, the cleaner's output has no two
rows with the same (Name, Team) cell pair; each emitted row is the first
among the rows reaching the dedup step that carries its key; and the
cleaner is idempotent on its own output. -/
theorem claim_C4_dedup (t : Table) (ni ti : Nat)
    (hn : colIdx t.cols "Name" = some ni)
    (ht : colIdx t.cols "Team" = some ti) :
    List.Pairwise
      (fun r1 r2 => ¬(cellAt r1 ni = cellAt r2 ni ∧ cellAt r1 ti = cellAt r2 ti))
      (dropJunkRows t).rows ∧
    (∀ y ∈ (dropJunkRows t).rows,
      ((preDedupRows t).filter
        (fun x => dedupKey t.cols x = dedupKey t.cols y)).head? = some y) ∧
    dropJunkRows (dropJunkRows t) = dropJunkRows t := by
  have hsub : (dedupSubset t.cols).isEmpty = false := by
    rw [dedupSubset_eq_both hn ht]
    rfl
  have hrows : (dropJunkRows t).rows
      = dedupByAux (dedupKey t.cols) [] (preDedupRows t) := by
    rw [dropJunkRows_eq_ite hn, hsub]
    simp
  refine ⟨?_, ?_, ?_⟩
  · rw [hrows]
    apply List.Pairwise.imp ?_
      (dedupByAux_notSeen_and_pairwise (dedupKey t.cols) (preDedupRows t) []).2
    intro a b hk hpair
    apply hk
    rw [dedupKey_pair a hn ht, dedupKey_pair b hn ht, hpair.1, hpair.2]
  · intro y hy
    rw [hrows] at hy
    exact (dedupByAux_first (dedupKey t.cols) (preDedupRows t) [] y hy).2
  · exact dropJunkRows_idem hn

/-- A table with a duplicated (Name, Team) pair. -/
def tblDup : Table :=
  ⟨["Name", "Team"],
   [[Cell.str "Lee, Min", Cell.str "Tigers"],
    [Cell.str "Lee, Min", Cell.str "Tigers"],
    [Cell.str "Ng, Ann", Cell.str "Tigers"]]⟩

theorem claim_C4_witness :
    colIdx tblDup.cols "Name" = some 0 ∧
    colIdx tblDup.cols "Team" = some 1 ∧
    dropJunkRows (dropJunkRows tblDup) = dropJunkRows tblDup :=
  ⟨by decide, by decide,
   (claim_C4_dedup tblDup 0 1 (by decide) (by decide)).2.2⟩

/-! ### Claim C5: the table selector picks the first maximal-score table -/

theorem chooseBestGo_ge_start :
    ∀ (ts : List Table) (b : Table), score b ≤ score (chooseBestGo b ts) := by
  intro ts
  induction ts with
  | nil => intro b; exact Nat.le_refl _
  | cons x ts ih =>
    intro b
    by_cases hbx : score b < score x
    · have hstep : chooseBestGo b (x :: ts) = chooseBestGo x ts := by
        simp [chooseBestGo, List.foldl_cons, if_pos hbx]
      rw [hstep]
      exact Nat.le_of_lt (Nat.lt_of_lt_of_le hbx (ih x))
    · have hstep : chooseBestGo b (x :: ts) = chooseBestGo b ts := by
        simp [chooseBestGo, List.foldl_cons, if_neg hbx]
      rw [hstep]
      exact ih b

theorem chooseBestGo_spec :
    ∀ (ts : List Table) (b : Table), ∃ pre post,
      b :: ts = pre ++ chooseBestGo b ts :: post ∧
      (∀ x ∈ pre, score x < score (chooseBestGo b ts)) ∧
      (∀ x ∈ post, score x ≤ score (chooseBestGo b ts)) := by
  intro ts
  induction ts with
  | nil =>
    intro b
    exact ⟨[], [], rfl, by simp, by simp⟩
  | cons x ts ih =>
    intro b
    by_cases hbx : score b < score x
    · have hstep : chooseBestGo b (x :: ts) = chooseBestGo x ts := by
        simp [chooseBestGo, List.foldl_cons, if_pos hbx]
      obtain ⟨pre, post, hdec, hpre, hpost⟩ := ih x
      refine ⟨b :: pre, post, ?_, ?_, ?_⟩
      · rw [hstep, List.cons_append, ← hdec]
      · intro z hz
        rcases List.mem_cons.mp hz with rfl | hz
        · exact Nat.lt_of_lt_of_le hbx (by rw [hstep]; exact chooseBestGo_ge_start ts x)
        · rw [hstep]; exact hpre z hz
      · intro z hz
        rw [hstep]; exact hpost z hz
    · have hstep : chooseBestGo b (x :: ts) = chooseBestGo b ts := by
        simp [chooseBestGo, List.foldl_cons, if_neg hbx]
      obtain ⟨pre, post, hdec, hpre, hpost⟩ := ih b
      cases pre with
      | nil =>
        have hb : chooseBestGo b ts = b ∧ post = ts := by
          rw [List.nil_append] at hdec
          exact ⟨(List.cons.injEq .. |>.mp hdec.symm).1,
            (List.cons.injEq .. |>.mp hdec.symm).2⟩
        refine ⟨[], x :: post, ?_, by simp, ?_⟩
        · rw [hstep, List.nil_append, hb.1, hb.2]
        · intro z hz
          rcases List.mem_cons.mp hz with rfl | hz
          · rw [hstep, hb.1]
            exact Nat.le_of_not_lt hbx
          · rw [hstep]
            exact hpost z hz
      | cons hd tl =>
        rw [List.cons_append] at hdec
        have hhd : hd = b := ((List.cons.injEq .. |>.mp hdec).1).symm
        have hts : ts = tl ++ chooseBestGo b ts :: post :=
          (List.cons.injEq .. |>.mp hdec).2
        have hblt : score b < score (chooseBestGo b ts) := by
          have h := hpre hd (List.mem_cons_self hd tl)
          rwa [hhd] at h
        refine ⟨b :: x :: tl, post, ?_, ?_, ?_⟩
        · rw [hstep, List.cons_append, List.cons_append, ← hts]
        · intro z hz
          rcases List.mem_cons.mp hz with rfl | hz
          · rw [hstep]
            exact hblt
          · rcases List.mem_cons.mp hz with rfl | hz
            · rw [hstep]
              exact Nat.lt_of_le_of_lt (Nat.le_of_not_lt hbx) hblt
            · rw [hstep]
              exact hpre z (List.mem_cons_of_mem hd hz)
        · intro z hz
          rw [hstep]
          exact hpost z hz

/-- C5: on a nonempty candidate list the selector returns a table whose
score is maximal, and — decomposing the list around the returned table —
every earlier candidate scores strictly lower (so the first maximum wins)
while every later candidate scores no higher. -/
theorem claim_C5_selector (ts : List Table) (hne : ts ≠ []) :
    ∃ b pre post, chooseBestTable ts = some b ∧ ts = pre ++ b :: post ∧
      (∀ x ∈ pre, score x < score b) ∧ (∀ x ∈ post, score x ≤ score b) := by
  cases ts with
  | nil => exact absurd rfl hne
  | cons t ts =>
    obtain ⟨pre, post, hdec, hpre, hpost⟩ := chooseBestGo_spec ts t
    exact ⟨chooseBestGo t ts, pre, post, rfl, hdec, hpre, hpost⟩

/-- Two candidates with the same (maximal) score, in encounter order. -/
def tblCandA : Table := ⟨["Name", "Team", "X"], []⟩

/-- A tying second candidate the selector must not pick. -/
def tblCandB : Table := ⟨["Name", "Team", "Y"], []⟩

theorem claim_C5_witness :
    ([tblCandA, tblCandB] : List Table) ≠ [] ∧
    ∃ b pre post, chooseBestTable [tblCandA, tblCandB] = some b ∧
      [tblCandA, tblCandB] = pre ++ b :: post ∧
      (∀ x ∈ pre, score x < score b) ∧ (∀ x ∈ post, score x ≤ score b) :=
  ⟨by decide, claim_C5_selector [tblCandA, tblCandB] (by decide)⟩

/-! ### Claim C6: header-row promotion threshold -/

/-- C6: the Schema Normalizer promotes the first data row to the header and
drops it from the data exactly when at least 5 of that row's trimmed cell
values are canonical column names; with fewer than 5 matches the rows are
left unchanged (only the column labels are trimmed and synonym-renamed). -/
theorem claim_C6_header_promotion (t : Table) (row0 : List Cell)
    (rest : List (List Cell)) (h : t.rows = row0 :: rest) :
    ∃ t2, normalizeHeaders t = Except.ok t2 ∧
      (headerOverlap row0 ≥ 5 →
        t2.rows = rest ∧
        t2.cols = applyRenames
          ((row0.map (fun c => pyStrip (cellStr c))).map pyStrip)) ∧
      (headerOverlap row0 < 5 →
        t2.rows = t.rows ∧ t2.cols = applyRenames (t.cols.map pyStrip)) := by
  by_cases h5 : headerOverlap row0 ≥ 5
  · refine ⟨⟨applyRenames
        ((row0.map (fun c => pyStrip (cellStr c))).map pyStrip), rest⟩,
      ?_, ?_, ?_⟩
    · unfold normalizeHeaders
      rw [h]
      simp [if_pos h5]
    · intro _
      exact ⟨rfl, rfl⟩
    · intro hlt
      omega
  · refine ⟨⟨applyRenames (t.cols.map pyStrip), t.rows⟩, ?_, ?_, ?_⟩
    · unfold normalizeHeaders
      rw [h]
      simp only [if_neg h5]
      exact congrArg Except.ok (congrArg (Table.mk _) h)
    · intro hge
      exact absurd hge h5
    · intro _
      exact ⟨rfl, rfl⟩

/-- A parsed table whose real header landed in the first data row. -/
def tblShiftedHeader : Table :=
  ⟨["0", "1", "2", "3", "4", "5"],
   [[Cell.str "Name", Cell.str "Pos", Cell.str "Team", Cell.str "Age",
     Cell.str "DOB", Cell.str "POB"],
    [Cell.str "Smith, John", Cell.str "SS", Cell.str "Tigers",
     Cell.str "27", Cell.str "d", Cell.str "p"]]⟩

theorem claim_C6_witness :
    tblShiftedHeader.rows
      = [Cell.str "Name", Cell.str "Pos", Cell.str "Team", Cell.str "Age",
         Cell.str "DOB", Cell.str "POB"] ::
        [[Cell.str "Smith, John", Cell.str "SS", Cell.str "Tigers",
          Cell.str "27", Cell.str "d", Cell.str "p"]] ∧
    ∃ t2, normalizeHeaders tblShiftedHeader = Except.ok t2 ∧
      (headerOverlap [Cell.str "Name", Cell.str "Pos", Cell.str "Team",
          Cell.str "Age", Cell.str "DOB", Cell.str "POB"] ≥ 5 →
        t2.rows = [[Cell.str "Smith, John", Cell.str "SS", Cell.str "Tigers",
          Cell.str "27", Cell.str "d", Cell.str "p"]] ∧
        t2.cols = applyRenames
          (([Cell.str "Name", Cell.str "Pos", Cell.str "Team", Cell.str "Age",
             Cell.str "DOB", Cell.str "POB"].map
            (fun c => pyStrip (cellStr c))).map pyStrip)) ∧
      (headerOverlap [Cell.str "Name", Cell.str "Pos", Cell.str "Team",
          Cell.str "Age", Cell.str "DOB", Cell.str "POB"] < 5 →
        t2.rows = tblShiftedHeader.rows ∧
        t2.cols = applyRenames (tblShiftedHeader.cols.map pyStrip)) :=
  ⟨by decide, claim_C6_header_promotion tblShiftedHeader _ _ (by decide)⟩

/-! ### Claim C10: a zero-row candidate aborts the whole letter -/

theorem normalizeHeaders_empty_error {t : Table} (h : t.rows = []) :
    normalizeHeaders t
      = Except.error "single positional indexer is out-of-bounds" := by
  unfold normalizeHeaders
  rw [h]

theorem mapME_error_of_mem {α β : Type} (f : α → Except String β) :
    ∀ (l : List α) (x : α), x ∈ l → ∀ e, f x = .error e →
      ∃ e2, mapME f l = .error e2 := by
  intro l
  induction l with
  | nil =>
    intro x hx
    exact absurd hx (List.not_mem_nil x)
  | cons y ys ih =>
    intro x hx e he
    rcases List.mem_cons.mp hx with rfl | hx
    · exact ⟨e, by unfold mapME; rw [he]⟩
    · cases hfy : f y with
      | error e3 => exact ⟨e3, by unfold mapME; rw [hfy]⟩
      | ok v =>
        obtain ⟨e2, h2⟩ := ih x hx e he
        exact ⟨e2, by unfold mapME; rw [hfy, h2]⟩

/-- C10: `_normalize_headers` reads the first row unconditionally, so a
zero-row candidate makes it fail; and since `extract_table` normalizes every
discovered candidate before selecting, one zero-row candidate among the
discovered tables makes the whole letter fail — even when another candidate
is a valid player table. -/
theorem claim_C10_empty_candidate :
    (∀ t : Table, t.rows = [] →
      normalizeHeaders t
        = Except.error "single positional indexer is out-of-bounds") ∧
    (∀ (tables : List Table) (t0 : Table), t0 ∈ tables → t0.rows = [] →
      ∀ T, extractTable tables ≠ Except.ok T) := by
  constructor
  · intro t h
    exact normalizeHeaders_empty_error h
  · intro tables t0 ht0 hrows T hok
    have hne : tables.isEmpty = false := by
      cases tables with
      | nil => exact absurd ht0 (List.not_mem_nil t0)
      | cons a as => rfl
    obtain ⟨e2, he2⟩ := mapME_error_of_mem normalizeHeaders tables t0 ht0 _
      (normalizeHeaders_empty_error hrows)
    unfold extractTable at hok
    rw [hne] at hok
    simp only [Bool.false_eq_true, if_false] at hok
    rw [he2] at hok
    exact Except.noConfusion hok

/-- A zero-row candidate table. -/
def tblZeroRows : Table := ⟨["A"], []⟩

/-- A valid player candidate alongside it. -/
def tblValid : Table :=
  ⟨["Name", "Pos", "Team"],
   [[Cell.str "Smith, John", Cell.str "SS", Cell.str "Tigers"]]⟩

theorem claim_C10_witness :
    tblZeroRows.rows = [] ∧
    normalizeHeaders tblZeroRows
      = Except.error "single positional indexer is out-of-bounds" ∧
    ∀ T, extractTable [tblZeroRows, tblValid] ≠ Except.ok T :=
  ⟨rfl, claim_C10_empty_candidate.1 tblZeroRows rfl,
   fun T => claim_C10_empty_candidate.2 [tblZeroRows, tblValid] tblZeroRows
     (by decide) rfl T⟩

/-! ### Claim C1: canonical columns of the cleaned and aggregated tables -/

theorem colIdxAux_getElem? {c : String} :
    ∀ {cols : List String} {i : Nat}, colIdxAux c cols = some i →
      cols[i]? = some c := by
  intro cols
  induction cols with
  | nil => intro i h; simp [colIdxAux] at h
  | cons x xs ih =>
    intro i h
    by_cases hx : x = c
    · simp [colIdxAux, hx] at h
      subst h
      simp [hx]
    · simp [colIdxAux, hx] at h
      obtain ⟨j, hj, rfl⟩ := h
      simpa using ih hj

theorem colIdx_getElem? {cols : List String} {c : String} {i : Nat}
    (h : colIdx cols c = some i) : cols[i]? = some c :=
  colIdxAux_getElem? h

theorem fillMissing_rows_length {u : Table} {r : List Cell}
    (hr : r ∈ (fillMissing u).rows) : r.length = COLUMNS.length := by
  unfold fillMissing projectCols at hr
  obtain ⟨r0, _, rfl⟩ := List.mem_map.mp hr
  exact List.length_map _ _

theorem fillMissing_absent_na {u : Table} {c : String} {i : Nat}
    (hnone : colIdx u.cols c = none) (hi : colIdx COLUMNS c = some i) :
    ∀ r ∈ (fillMissing u).rows, cellAt r i = Cell.na := by
  intro r hr
  unfold fillMissing projectCols at hr
  obtain ⟨r0, _, rfl⟩ := List.mem_map.mp hr
  unfold cellAt
  rw [List.getD_eq_getElem?_getD, List.getElem?_map, colIdx_getElem? hi]
  simp [hnone]

theorem extractTable_ok_shape {tables : List Table} {T : Table}
    (h : extractTable tables = Except.ok T) : ∃ u : Table, T = fillMissing u := by
  unfold extractTable at h
  split at h
  · exact Except.noConfusion h
  · split at h
    · exact Except.noConfusion h
    · split at h
      · exact Except.noConfusion h
      · injection h with h
        exact ⟨_, h.symm⟩

theorem mapME_ok_mem {α β : Type} (f : α → Except String β) :
    ∀ {l : List α} {ys : List β}, mapME f l = Except.ok ys →
      ∀ y ∈ ys, ∃ x ∈ l, f x = Except.ok y := by
  intro l
  induction l with
  | nil =>
    intro ys h y hy
    unfold mapME at h
    injection h with h
    subst h
    exact absurd hy (List.not_mem_nil y)
  | cons x xs ih =>
    intro ys h y hy
    unfold mapME at h
    cases hfx : f x with
    | error e => rw [hfx] at h; exact Except.noConfusion h
    | ok v =>
      rw [hfx] at h
      cases hm : mapME f xs with
      | error e => rw [hm] at h; exact Except.noConfusion h
      | ok vs =>
        rw [hm] at h
        injection h with h
        subst h
        rcases List.mem_cons.mp hy with rfl | hy
        · exact ⟨x, List.mem_cons_self x xs, hfx⟩
        · obtain ⟨x2, hx2, hfx2⟩ := ih hm y hy
          exact ⟨x2, List.mem_cons_of_mem x hx2, hfx2⟩

theorem collectFrames_frame_cols {letters : List String}
    {pages : String → List Table} {frames : List Table}
    (h : collectFrames letters pages = Except.ok frames) :
    ∀ f ∈ frames, f.cols = COLUMNS ++ ["Letter"] := by
  intro f hf
  obtain ⟨L, _, hfL⟩ := mapME_ok_mem _ h f hf
  cases hext : extractTable (pages L) with
  | error e => rw [hext] at hfL; exact Except.noConfusion hfL
  | ok u =>
    rw [hext] at hfL
    simp only [Except.map] at hfL
    injection hfL with hfL
    obtain ⟨w, rfl⟩ := extractTable_ok_shape hext
    rw [← hfL]
    rfl

/-- C1 amended: every table `extract_table` returns exposes exactly the
canonical column set, in canonical order, every row having one cell per
canonical column (first conjunct); every canonical column absent from the
cleaned source table is filled entirely with the missing marker (second
conjunct); the Aggregate Dataset exposes the canonical columns in canonical
order followed by one extra `Letter` tag column — not the canonical set
alone (third conjunct). -/
theorem claim_C1_amended :
    (∀ (tables : List Table) (T : Table), extractTable tables = Except.ok T →
      T.cols = COLUMNS ∧ ∀ r ∈ T.rows, r.length = COLUMNS.length) ∧
    (∀ (u : Table) (c : String) (i : Nat), colIdx u.cols c = none →
      colIdx COLUMNS c = some i →
      ∀ r ∈ (fillMissing u).rows, cellAt r i = Cell.na) ∧
    (∀ (letters : List String) (pages : String → List Table) (T : Table),
      mainAggregate letters pages = Except.ok T →
      T.cols = COLUMNS ++ ["Letter"]) := by
  refine ⟨?_, ?_, ?_⟩
  · intro tables T h
    obtain ⟨u, rfl⟩ := extractTable_ok_shape h
    exact ⟨rfl, fun r hr => fillMissing_rows_length hr⟩
  · intro u c i h1 h2
    exact fillMissing_absent_na h1 h2
  · intro letters pages T h
    unfold mainAggregate at h
    cases hcf : collectFrames letters pages with
    | error e => rw [hcf] at h; exact Except.noConfusion h
    | ok frames =>
      rw [hcf] at h
      cases frames with
      | nil => exact Except.noConfusion h
      | cons f fs =>
        injection h with h
        rw [← h]
        exact collectFrames_frame_cols hcf f (List.mem_cons_self f fs)

/-- A page source serving one valid three-column player table. -/
def pagesSingle : String → List Table := fun _ => [tblValid]

/-- The aggregate the pipeline produces from `pagesSingle` for letter `b`. -/
def aggSingle : Table :=
  ⟨COLUMNS ++ ["Letter"],
   [[Cell.str "Smith, John", Cell.str "SS", Cell.str "Tigers", Cell.na,
     Cell.na, Cell.na, Cell.na, Cell.na, Cell.na, Cell.na, Cell.na, Cell.na,
     Cell.str "b"]]⟩

/-- C1 counterexample: the Aggregate Dataset does not expose exactly the
canonical column set — it carries a thirteenth `Letter` column. -/
theorem claim_C1_counterexample :
    mainAggregate ["b"] pagesSingle = Except.ok aggSingle ∧
    aggSingle.cols ≠ COLUMNS ∧ "Letter" ∈ aggSingle.cols :=
  ⟨rfl, by decide, by decide⟩

theorem claim_C1_witness :
    mainAggregate ["b"] pagesSingle = Except.ok aggSingle ∧
    aggSingle.cols = COLUMNS ++ ["Letter"] :=
  ⟨rfl, claim_C1_amended.2.2 ["b"] pagesSingle aggSingle rfl⟩

/-! ### Order facts for the sort key comparisons -/

theorem charListLt_irrefl : ∀ l : List Char, charListLt l l = false := by
  intro l
  induction l with
  | nil => rfl
  | cons c cs ih =>
    unfold charListLt
    rw [if_neg (Nat.lt_irrefl c.toNat), if_neg (Nat.lt_irrefl c.toNat)]
    exact ih

theorem charListLt_asymm : ∀ l1 l2 : List Char,
    charListLt l1 l2 = true → charListLt l2 l1 = false := by
  intro l1
  induction l1 with
  | nil =>
    intro l2 _
    cases l2 <;> rfl
  | cons a as ih =>
    intro l2 h
    cases l2 with
    | nil => simp [charListLt] at h
    | cons b bs =>
      unfold charListLt at h ⊢
      by_cases hab : a.toNat < b.toNat
      · rw [if_neg (Nat.lt_asymm hab), if_pos hab]
      · rw [if_neg hab] at h
        by_cases hba : b.toNat < a.toNat
        · rw [if_pos hba] at h
          exact absurd h (by decide)
        · rw [if_neg hba] at h
          rw [if_neg hba, if_neg hab]
          exact ih bs h

theorem charListLt_conn : ∀ l1 l2 : List Char,
    charListLt l1 l2 = false → charListLt l2 l1 = false → l1 = l2 := by
  intro l1
  induction l1 with
  | nil =>
    intro l2 h1 _
    cases l2 with
    | nil => rfl
    | cons b bs => simp [charListLt] at h1
  | cons a as ih =>
    intro l2 h1 h2
    cases l2 with
    | nil => simp [charListLt] at h2
    | cons b bs =>
      unfold charListLt at h1 h2
      by_cases hab : a.toNat < b.toNat
      · rw [if_pos hab] at h1
        exact absurd h1 (by decide)
      · by_cases hba : b.toNat < a.toNat
        · rw [if_pos hba] at h2
          exact absurd h2 (by decide)
        · rw [if_neg hab, if_neg hba] at h1
          rw [if_neg hba, if_neg hab] at h2
          have hn : a.toNat = b.toNat := by omega
          have hc : a = b := Char.eq_of_val_eq (UInt32.toNat.inj hn)
          rw [hc, ih bs h1 h2]

theorem charListLt_lt_of_lt : ∀ l3 l1 l2 : List Char,
    charListLt l3 l1 = true →
      charListLt l3 l2 = true ∨ charListLt l2 l1 = true := by
  intro l3
  induction l3 with
  | nil =>
    intro l1 l2 h
    cases l1 with
    | nil => simp [charListLt] at h
    | cons a as =>
      cases l2 with
      | nil => exact Or.inr rfl
      | cons b bs => exact Or.inl rfl
  | cons c cs ih =>
    intro l1 l2 h
    cases l1 with
    | nil => simp [charListLt] at h
    | cons a as =>
      cases l2 with
      | nil => exact Or.inr rfl
      | cons b bs =>
        unfold charListLt at h ⊢
        by_cases hca : c.toNat < a.toNat
        · by_cases hcb : c.toNat < b.toNat
          · exact Or.inl (by rw [if_pos hcb])
          · have hba : b.toNat < a.toNat := by omega
            exact Or.inr (by rw [if_pos hba])
        · by_cases hac : a.toNat < c.toNat
          · rw [if_neg hca, if_pos hac] at h
            exact absurd h (by decide)
          · rw [if_neg hca, if_neg hac] at h
            by_cases hcb : c.toNat < b.toNat
            · exact Or.inl (by rw [if_pos hcb])
            · by_cases hbc : b.toNat < c.toNat
              · have hba : b.toNat < a.toNat := by omega
                exact Or.inr (by rw [if_pos hba])
              · rcases ih as bs h with h2 | h2
                · refine Or.inl ?_
                  rw [if_neg hcb, if_neg hbc]
                  exact h2
                · refine Or.inr ?_
                  rw [if_neg (by omega : ¬b.toNat < a.toNat),
                    if_neg (by omega : ¬a.toNat < b.toNat)]
                  exact h2

theorem strLe_refl (a : String) : strLe a a = true := by
  unfold strLe
  rw [charListLt_irrefl]
  rfl

theorem strLe_total (a b : String) : strLe a b = true ∨ strLe b a = true := by
  unfold strLe
  by_cases h : charListLt b.data a.data = true
  · right
    rw [charListLt_asymm _ _ h]
    rfl
  · left
    rw [Bool.not_eq_true] at h
    rw [h]
    rfl

theorem strLe_trans {a b c : String} (h1 : strLe a b = true)
    (h2 : strLe b c = true) : strLe a c = true := by
  unfold strLe at h1 h2 ⊢
  rw [Bool.not_eq_true'] at h1 h2 ⊢
  by_cases h : charListLt c.data a.data = true
  · rcases charListLt_lt_of_lt _ _ b.data h with h3 | h3
    · rw [h3] at h2
      exact absurd h2 (by decide)
    · rw [h3] at h1
      exact absurd h1 (by decide)
  · rw [Bool.not_eq_true] at h
    exact h

theorem strLe_antisymm {a b : String} (h1 : strLe a b = true)
    (h2 : strLe b a = true) : a = b := by
  unfold strLe at h1 h2
  rw [Bool.not_eq_true'] at h1 h2
  have hd := charListLt_conn a.data b.data h2 h1
  cases a with
  | mk la =>
    cases b with
    | mk lb => exact congrArg String.mk hd

theorem cellLe_refl (a : Cell) : cellLe a a = true := by
  cases a with
  | na => rfl
  | str s => exact strLe_refl s
  | num n => simp [cellLe]

theorem cellLe_total (a b : Cell) : cellLe a b = true ∨ cellLe b a = true := by
  cases a with
  | na => cases b <;> simp [cellLe]
  | str s =>
    cases b with
    | na => simp [cellLe]
    | str t => simpa [cellLe] using strLe_total s t
    | num n => simp [cellLe]
  | num m =>
    cases b with
    | na => simp [cellLe]
    | str t => simp [cellLe]
    | num n => simpa [cellLe] using Int.le_total m n

theorem cellLe_trans {a b c : Cell} (h1 : cellLe a b = true)
    (h2 : cellLe b c = true) : cellLe a c = true := by
  cases a <;> cases b <;> cases c <;> simp_all [cellLe]
  · exact strLe_trans h1 h2
  · omega

theorem cellLe_antisymm {a b : Cell} (h1 : cellLe a b = true)
    (h2 : cellLe b a = true) : a = b := by
  cases a <;> cases b <;> simp_all [cellLe]
  · exact strLe_antisymm h1 h2
  · omega

theorem keyLe_refl_of_eq {k1 k2 : Cell × Cell × Cell} (h : k1 = k2) :
    keyLe k1 k2 = true := by
  subst h
  unfold keyLe
  rw [if_pos rfl, if_pos rfl]
  exact cellLe_refl _

theorem keyLe_total (k1 k2 : Cell × Cell × Cell) :
    keyLe k1 k2 = true ∨ keyLe k2 k1 = true := by
  unfold keyLe
  by_cases h1 : k1.1 = k2.1
  · rw [if_pos h1, if_pos h1.symm]
    by_cases h2 : k1.2.1 = k2.2.1
    · rw [if_pos h2, if_pos h2.symm]
      exact cellLe_total _ _
    · rw [if_neg h2, if_neg (fun he => h2 he.symm)]
      exact cellLe_total _ _
  · rw [if_neg h1, if_neg (fun he => h1 he.symm)]
    exact cellLe_total _ _

theorem keyLe_trans {k1 k2 k3 : Cell × Cell × Cell}
    (h1 : keyLe k1 k2 = true) (h2 : keyLe k2 k3 = true) :
    keyLe k1 k3 = true := by
  unfold keyLe at h1 h2 ⊢
  by_cases h12 : k1.1 = k2.1
  · by_cases h23 : k2.1 = k3.1
    · rw [if_pos h12] at h1
      rw [if_pos h23] at h2
      rw [if_pos (h12.trans h23)]
      by_cases g12 : k1.2.1 = k2.2.1
      · by_cases g23 : k2.2.1 = k3.2.1
        · rw [if_pos g12] at h1
          rw [if_pos g23] at h2
          rw [if_pos (g12.trans g23)]
          exact cellLe_trans h1 h2
        · rw [if_pos g12] at h1
          rw [if_neg g23] at h2
          rw [if_neg (fun he => g23 (g12.symm.trans he)), g12]
          exact h2
      · by_cases g23 : k2.2.1 = k3.2.1
        · rw [if_neg g12] at h1
          have g13 : ¬k1.2.1 = k3.2.1 := fun he => g12 (he.trans g23.symm)
          rw [if_neg g13, ← g23]
          exact h1
        · rw [if_neg g12] at h1
          rw [if_neg g23] at h2
          by_cases g13 : k1.2.1 = k3.2.1
          · exfalso
            apply g12
            apply cellLe_antisymm h1
            rw [← g13] at h2
            exact h2
          · rw [if_neg g13]
            exact cellLe_trans h1 h2
    · rw [if_neg h23] at h2
      have h13 : ¬k1.1 = k3.1 := fun he => h23 (h12.symm.trans he)
      rw [if_neg h13, h12]
      exact h2
  · by_cases h23 : k2.1 = k3.1
    · rw [if_neg h12] at h1
      have h13 : ¬k1.1 = k3.1 := fun he => h12 (he.trans h23.symm)
      rw [if_neg h13, ← h23]
      exact h1
    · rw [if_neg h12] at h1
      rw [if_neg h23] at h2
      by_cases h13 : k1.1 = k3.1
      · exfalso
        apply h12
        apply cellLe_antisymm h1
        rw [← h13] at h2
        exact h2
      · rw [if_neg h13]
        exact cellLe_trans h1 h2

/-! ### The stable insertion sort: permutation, sortedness, stability -/

theorem insSorted_perm {α : Type} (le : α → α → Bool) (x : α) :
    ∀ l : List α, (insSorted le x l).Perm (x :: l) := by
  intro l
  induction l with
  | nil => exact List.Perm.refl _
  | cons y ys ih =>
    unfold insSorted
    by_cases h : le y x = true
    · rw [if_pos h]
      exact (List.Perm.cons y ih).trans (List.Perm.swap x y ys)
    · rw [if_neg h]

theorem stableSortBy_go_perm {α : Type} (le : α → α → Bool) :
    ∀ (l acc : List α),
      (l.foldl (fun a x => insSorted le x a) acc).Perm (acc ++ l) := by
  intro l
  induction l with
  | nil => intro acc; simp
  | cons x xs ih =>
    intro acc
    rw [List.foldl_cons]
    refine (ih (insSorted le x acc)).trans ?_
    refine (List.Perm.append_right xs (insSorted_perm le x acc)).trans ?_
    exact List.perm_middle.symm

theorem stableSortBy_perm {α : Type} (le : α → α → Bool) (l : List α) :
    (stableSortBy le l).Perm l := by
  unfold stableSortBy
  simpa using stableSortBy_go_perm le l []

theorem insSorted_pairwise {α : Type} (le : α → α → Bool)
    (htot : ∀ a b, le a b = true ∨ le b a = true)
    (htrans : ∀ a b c, le a b = true → le b c = true → le a c = true)
    (x : α) :
    ∀ l : List α, List.Pairwise (fun a b => le a b = true) l →
      List.Pairwise (fun a b => le a b = true) (insSorted le x l) := by
  intro l
  induction l with
  | nil =>
    intro _
    exact List.pairwise_singleton _ _
  | cons y ys ih =>
    intro hp
    rw [List.pairwise_cons] at hp
    unfold insSorted
    by_cases h : le y x = true
    · rw [if_pos h, List.pairwise_cons]
      refine ⟨?_, ih hp.2⟩
      intro z hz
      rcases List.mem_cons.mp ((insSorted_perm le x ys).mem_iff.mp hz) with rfl | hz2
      · exact h
      · exact hp.1 z hz2
    · rw [if_neg h, List.pairwise_cons]
      have hxy : le x y = true := by
        rcases htot x y with h2 | h2
        · exact h2
        · exact absurd h2 h
      refine ⟨?_, List.pairwise_cons.mpr hp⟩
      intro z hz
      rcases List.mem_cons.mp hz with rfl | hz2
      · exact hxy
      · exact htrans x y z hxy (hp.1 z hz2)

theorem stableSortBy_go_pairwise {α : Type} (le : α → α → Bool)
    (htot : ∀ a b, le a b = true ∨ le b a = true)
    (htrans : ∀ a b c, le a b = true → le b c = true → le a c = true) :
    ∀ (l acc : List α), List.Pairwise (fun a b => le a b = true) acc →
      List.Pairwise (fun a b => le a b = true)
        (l.foldl (fun a x => insSorted le x a) acc) := by
  intro l
  induction l with
  | nil => intro acc hacc; exact hacc
  | cons x xs ih =>
    intro acc hacc
    rw [List.foldl_cons]
    exact ih (insSorted le x acc) (insSorted_pairwise le htot htrans x acc hacc)

theorem stableSortBy_pairwise {α : Type} (le : α → α → Bool)
    (htot : ∀ a b, le a b = true ∨ le b a = true)
    (htrans : ∀ a b c, le a b = true → le b c = true → le a c = true)
    (l : List α) :
    List.Pairwise (fun a b => le a b = true) (stableSortBy le l) := by
  unfold stableSortBy
  exact stableSortBy_go_pairwise le htot htrans l [] (List.Pairwise.nil)

theorem insSorted_filter_pos {α : Type} (le : α → α → Bool)
    (htrans : ∀ a b c, le a b = true → le b c = true → le a c = true)
    (p : α → Bool) (x : α) (hx : p x = true)
    (hple : ∀ y, p y = true → le y x = true) :
    ∀ l : List α, List.Pairwise (fun a b => le a b = true) l →
      (insSorted le x l).filter p = l.filter p ++ [x] := by
  intro l
  induction l with
  | nil =>
    intro _
    simp [insSorted, hx]
  | cons y ys ih =>
    intro hp
    rw [List.pairwise_cons] at hp
    unfold insSorted
    by_cases h : le y x = true
    · rw [if_pos h, List.filter_cons, List.filter_cons]
      by_cases hpy : p y = true
      · rw [if_pos hpy, if_pos hpy, ih hp.2, List.cons_append]
      · rw [if_neg hpy, if_neg hpy, ih hp.2]
    · rw [if_neg h, List.filter_cons, if_pos hx]
      have hnil : (y :: ys).filter p = [] := by
        rw [List.filter_eq_nil_iff]
        intro z hz hpz
        rcases List.mem_cons.mp hz with rfl | hz2
        · exact h (hple z hpz)
        · exact h (htrans y z x (hp.1 z hz2) (hple z hpz))
      rw [hnil]
      rfl

theorem insSorted_filter_neg {α : Type} (le : α → α → Bool) (p : α → Bool)
    (x : α) (hx : p x = false) :
    ∀ l : List α, (insSorted le x l).filter p = l.filter p := by
  intro l
  induction l with
  | nil => simp [insSorted, hx]
  | cons y ys ih =>
    unfold insSorted
    by_cases h : le y x = true
    · rw [if_pos h, List.filter_cons, List.filter_cons, ih]
    · rw [if_neg h, List.filter_cons, if_neg (by rw [hx]; exact Bool.false_ne_true)]

theorem stableSortBy_go_filter {α κ : Type} [DecidableEq κ]
    (le : α → α → Bool) (key : α → κ)
    (htot : ∀ a b, le a b = true ∨ le b a = true)
    (htrans : ∀ a b c, le a b = true → le b c = true → le a c = true)
    (hcong : ∀ a b, key a = key b → le a b = true) (k : κ) :
    ∀ (l acc : List α), List.Pairwise (fun a b => le a b = true) acc →
      (l.foldl (fun a x => insSorted le x a) acc).filter
          (fun a => key a = k)
        = acc.filter (fun a => key a = k) ++ l.filter (fun a => key a = k) := by
  intro l
  induction l with
  | nil =>
    intro acc _
    simp
  | cons x xs ih =>
    intro acc hacc
    rw [List.foldl_cons,
      ih (insSorted le x acc) (insSorted_pairwise le htot htrans x acc hacc)]
    by_cases hpx : key x = k
    · rw [insSorted_filter_pos le htrans (fun a => key a = k) x
        (decide_eq_true hpx)
        (fun y hy => hcong y x ((of_decide_eq_true hy).trans hpx.symm))
        acc hacc]
      rw [List.filter_cons, if_pos (decide_eq_true hpx), List.append_assoc]
      rfl
    · rw [insSorted_filter_neg le (fun a => key a = k) x
        (decide_eq_false hpx) acc]
      rw [List.filter_cons, if_neg (by simp [hpx])]

theorem stableSortBy_filter_key {α κ : Type} [DecidableEq κ]
    (le : α → α → Bool) (key : α → κ)
    (htot : ∀ a b, le a b = true ∨ le b a = true)
    (htrans : ∀ a b c, le a b = true → le b c = true → le a c = true)
    (hcong : ∀ a b, key a = key b → le a b = true) (k : κ) (l : List α) :
    (stableSortBy le l).filter (fun a => key a = k)
      = l.filter (fun a => key a = k) := by
  unfold stableSortBy
  simpa using
    stableSortBy_go_filter le key htot htrans hcong k l [] List.Pairwise.nil

/-! ### Claim C8: the aggregate's content and order -/

/-- C8 amended: given the per-letter frames the run collected, the Aggregate
Dataset's rows are exactly a permutation of the concatenated tagged frame
rows (no row dropped or merged), sorted ascending by the (Letter, Name,
Team) key with missing values last, and stably: for every key value, the
aggregate's rows with that key appear exactly in their concatenation
order. -/
theorem claim_C8_amended (letters : List String)
    (pages : String → List Table) (frames : List Table) (T : Table)
    (hcf : collectFrames letters pages = Except.ok frames)
    (hok : mainAggregate letters pages = Except.ok T) :
    T.rows.Perm ((frames.map Table.rows).flatten) ∧
    List.Pairwise (fun r1 r2 => aggRowLe T.cols r1 r2 = true) T.rows ∧
    ∀ k : Cell × Cell × Cell,
      T.rows.filter (fun r => aggKey T.cols r = k)
        = ((frames.map Table.rows).flatten).filter
            (fun r => aggKey T.cols r = k) := by
  unfold mainAggregate at hok
  rw [hcf] at hok
  cases frames with
  | nil => exact Except.noConfusion hok
  | cons f fs =>
    injection hok with hok
    subst hok
    refine ⟨stableSortBy_perm _ _, ?_, ?_⟩
    · exact stableSortBy_pairwise (aggRowLe f.cols)
        (fun a b => keyLe_total _ _)
        (fun a b c h1 h2 => keyLe_trans h1 h2)
        _
    · intro k
      exact stableSortBy_filter_key (aggRowLe f.cols) (aggKey f.cols)
        (fun a b => keyLe_total _ _)
        (fun a b c h1 h2 => keyLe_trans h1 h2)
        (fun a b he => keyLe_refl_of_eq he)
        k _

/-- A page source for two letters, "c" and "a". -/
def pagesTwoLetters : String → List Table := fun L =>
  if L = "c" then
    [⟨["Name", "Pos", "Team"],
      [[Cell.str "Cole, Ann", Cell.str "SS", Cell.str "T1"]]⟩]
  else
    [⟨["Name", "Pos", "Team"],
      [[Cell.str "Abel, Bo", Cell.str "CF", Cell.str "T2"]]⟩]

/-- The tagged row produced for letter "c". -/
def rowCole : List Cell :=
  [Cell.str "Cole, Ann", Cell.str "SS", Cell.str "T1", Cell.na, Cell.na,
   Cell.na, Cell.na, Cell.na, Cell.na, Cell.na, Cell.na, Cell.na,
   Cell.str "c"]

/-- The tagged row produced for letter "a". -/
def rowAbel : List Cell :=
  [Cell.str "Abel, Bo", Cell.str "CF", Cell.str "T2", Cell.na, Cell.na,
   Cell.na, Cell.na, Cell.na, Cell.na, Cell.na, Cell.na, Cell.na,
   Cell.str "a"]

/-- The frame collected for letter "c" (processed first). -/
def frameC : Table := ⟨COLUMNS ++ ["Letter"], [rowCole]⟩

/-- The frame collected for letter "a" (processed second). -/
def frameA : Table := ⟨COLUMNS ++ ["Letter"], [rowAbel]⟩

/-- The aggregate the pipeline produces for letters `["c", "a"]`. -/
def aggTwo : Table := ⟨COLUMNS ++ ["Letter"], [rowAbel, rowCole]⟩

/-- C8 counterexample: with processing order `["c", "a"]`, the concatenated
per-letter rows carry letters `c` then `a`, but the aggregate sorts the
`"a"`-tagged row first — the sort is alphabetic on the Letter value, not
"letters ascending in processing order" as claimed. -/
theorem claim_C8_counterexample :
    collectFrames ["c", "a"] pagesTwoLetters = Except.ok [frameC, frameA] ∧
    (([frameC, frameA].map Table.rows).flatten) = [rowCole, rowAbel] ∧
    mainAggregate ["c", "a"] pagesTwoLetters = Except.ok aggTwo ∧
    aggTwo.rows = [rowAbel, rowCole] ∧
    cellAt rowCole 12 = Cell.str "c" ∧ cellAt rowAbel 12 = Cell.str "a" :=
  ⟨rfl, rfl, rfl, rfl, rfl, rfl⟩

theorem claim_C8_witness :
    aggTwo.rows.Perm (([frameC, frameA].map Table.rows).flatten) ∧
    List.Pairwise (fun r1 r2 => aggRowLe aggTwo.cols r1 r2 = true)
      aggTwo.rows ∧
    ∀ k : Cell × Cell × Cell,
      aggTwo.rows.filter (fun r => aggKey aggTwo.cols r = k)
        = (([frameC, frameA].map Table.rows).flatten).filter
            (fun r => aggKey aggTwo.cols r = k) :=
  claim_C8_amended ["c", "a"] pagesTwoLetters [frameC, frameA] aggTwo rfl rfl
